import Mathlib

/-!
Verification of the airweave synchronization pipeline specification.

The repository ships the frontend bootstrap (`src/unnamed/part_000`,
`src/unnamed/part_001`), documentation and deployment configuration; the
synchronization and transformation pipeline itself is documented in the
specification but not present as implementation.  The pipeline definitions
below are therefore modelled from the specification text; the frontend
configuration object is embedded directly from `src/unnamed/part_001`.
-/

namespace Airweave

/-! ## Frontend configuration (src/unnamed/part_001) -/

/-- The environment as seen by the Vite frontend: each `import.meta.env`
entry is either an assigned string or undefined (`none`). -/
structure ViteEnv where
  VITE_API_URL : Option String
  MODE : Option String
deriving DecidableEq

/-- JavaScript `a || b` on an optional string value: `undefined` and the
empty string are falsy, so both select the default. -/
def jsOrDefault (v : Option String) (d : String) : String :=
  match v with
  | none => d
  | some s => if s = "" then d else s

structure FrontendConfig where
  apiUrl : String
  environment : String
  version : String
deriving DecidableEq

/-- The `config` object of `src/unnamed/part_001`:
`apiUrl: import.meta.env.VITE_API_URL || 'http://localhost:8000'`,
`environment: import.meta.env.MODE || 'development'`,
`version: '1.0.0'`. -/
def config (env : ViteEnv) : FrontendConfig :=
  { apiUrl := jsOrDefault env.VITE_API_URL "http://localhost:8000"
  , environment := jsOrDefault env.MODE "development"
  , version := "1.0.0" }

/-! ## Payloads, canonical serialization and content hashing -/

/-- A payload: a mapping of field name to (string-typed) value, carried as
an association list whose insertion order is irrelevant semantics. -/
abbrev Payload := List (String × String)

/-- Modelled from the spec: each entity type's declared schema, with its
required fields and its hash-excluded volatile fields (the missing
Entity Normalizer component). -/
structure Schema where
  required : List String
  hashExcluded : List String

/-- Assignment of a schema to every entity type. -/
abbrev Schemas := String → Schema

/-- The field names of a payload, deduplicated. -/
def payloadKeys (p : Payload) : List String :=
  (p.map Prod.fst).dedup

/-- The semantically relevant keys of a payload: its keys, deduplicated,
without the hash-excluded volatile fields. -/
def semanticKeys (ex : List String) (p : Payload) : List String :=
  (payloadKeys p).filter (fun k => decide (¬ k ∈ ex))

/-- One entry of the canonical serialization: the key together with the
value the payload maps it to. -/
def serializeEntry (p : Payload) (k : String) : String :=
  k ++ "=" ++ (match List.lookup k p with | some v => v | none => "") ++ ";"

/-- One step of a rolling digest over a character. -/
def digestChar (h : Nat) (c : Char) : Nat :=
  (h * 131 + c.toNat) % (2 ^ 64)

/-- A deterministic digest of a string. -/
def digestString (s : String) : Nat :=
  s.data.foldl digestChar 5381

/-- The digest of one serialized payload entry. -/
def entryDigest (p : Payload) (k : String) : Nat :=
  digestString (serializeEntry p k)

/-- Modelled from the spec: `content_hash` — a canonical digest of the
payload, combining the per-field entry digests of the non-excluded
fields commutatively so that it is insensitive to key insertion order
and to the hash-excluded volatile fields. -/
def contentHash (ex : List String) (p : Payload) : Nat :=
  ((semanticKeys ex p).map (entryDigest p)).sum % (2 ^ 64)

/-! ## Entities, normalization, the cursor store and actions -/

/-- A `(entity_type, entity_id)` key, scoped to one connection. -/
abbrev Key := String × String

/-- A raw record produced by a source connector. -/
structure RawRecord where
  entityType : String
  entityId : String
  fields : Payload
deriving DecidableEq

/-- The canonical entity: one unit of source data after normalization. -/
structure Entity where
  entityType : String
  entityId : String
  payload : Payload
deriving DecidableEq

/-- The `(entity_type, entity_id)` key of an entity. -/
def entityKey (e : Entity) : Key :=
  (e.entityType, e.entityId)

/-- The `(entity_type, entity_id)` key of a raw record. -/
def recordKey (r : RawRecord) : Key :=
  (r.entityType, r.entityId)

/-- The content hash of an entity under its type's schema. -/
def entityHash (schemas : Schemas) (e : Entity) : Nat :=
  contentHash (schemas e.entityType).hashExcluded e.payload

/-- Modelled from the spec: `normalize(raw_record, entity_type) → Entity`,
a deterministic pure mapping which raises `SchemaViolation` when a
required field of the entity type's schema is absent (the missing
Entity Normalizer component). -/
def normalize (schemas : Schemas) (r : RawRecord) : Except String Entity :=
  if (schemas r.entityType).required.all (fun k => (List.lookup k r.fields).isSome) then
    Except.ok { entityType := r.entityType, entityId := r.entityId, payload := r.fields }
  else
    Except.error "SchemaViolation"

/-- The sync actions an entity decision or reconciliation can emit. -/
inductive Action where
  | Insert
  | Update
  | Skip
  | Delete
deriving DecidableEq

/-- The Sync Cursor: a per-connection mapping from `(entity_type,
entity_id)` to the last committed content hash. -/
abbrev Cursor := List (Key × Nat)

/-- The stored hash for a key in a cursor, if any. -/
def cursorLookup (k : Key) : Cursor → Option Nat
  | [] => none
  | (k0, h0) :: rest => if k0 = k then some h0 else cursorLookup k rest

/-- Modelled from the spec: `decide(entity) → Action` of the Sync Cursor /
Content-Hash Store (the missing component) — compare `content_hash`
against the stored hash for `(entity_type, entity_id)`; absence of a
prior hash gives `Insert`, a hash match gives `Skip`, a mismatch gives
`Update`. -/
def decideAction (cursor : Cursor) (k : Key) (h : Nat) : Action :=
  match cursorLookup k cursor with
  | none => Action.Insert
  | some h0 => if h0 = h then Action.Skip else Action.Update

/-- Modelled from the spec: `reconcile(seen_ids_this_run)` of the Sync
Cursor store — the keys tracked in the prior cursor that were not
observed in the current run; each gets a deletion action. -/
def reconcile (oldCursor : Cursor) (seen : List Key) : List Key :=
  ((oldCursor.map Prod.fst).dedup).filter (fun k => decide (¬ k ∈ seen))

/-! ## Job stats, statuses and one pipeline run -/

/-- Per-job counters of inserted / updated / deleted / skipped / failed
entities. -/
structure Stats where
  inserted : Nat
  updated : Nat
  deleted : Nat
  skipped : Nat
  failed : Nat
deriving DecidableEq

/-- The status of a Sync Job. -/
inductive JobStatus where
  | Pending
  | Running
  | Completed
  | Failed
  | Cancelled
deriving DecidableEq

/-- Whether a job status is terminal. -/
def JobStatus.isTerminal : JobStatus → Bool
  | JobStatus.Completed => true
  | JobStatus.Failed => true
  | JobStatus.Cancelled => true
  | _ => false

/-- Upsert into the destination store by key. -/
def upsert (dest : List (Key × Nat)) (k : Key) (h : Nat) : List (Key × Nat) :=
  match dest with
  | [] => [(k, h)]
  | (k0, h0) :: rest => if k0 = k then (k, h) :: rest else (k0, h0) :: upsert rest k h

/-- The in-flight state of one running Sync Job: its stats, its delta
buffer of new cursor entries, the destination contents, the write
operations performed, and the keys observed so far. -/
structure RunState where
  stats : Stats
  newCursor : Cursor
  dest : List (Key × Nat)
  writes : List (Action × Key)
  seen : List Key
deriving DecidableEq

/-- The initial in-flight state of a run over a given destination. -/
def initState (dest0 : List (Key × Nat)) : RunState :=
  { stats := ⟨0, 0, 0, 0, 0⟩, newCursor := [], dest := dest0, writes := [], seen := [] }

/-- Modelled from the spec: processing of one raw record inside a Sync Job
(the missing pipeline) — normalize it (a `SchemaViolation` is skipped and
counted, not fatal), decide the action against the prior run's cursor,
write to the destination for `Insert` and `Update`, record the new hash
in the delta buffer and mark the key as seen. -/
def processRecord (schemas : Schemas) (oldCursor : Cursor) (st : RunState)
    (r : RawRecord) : RunState :=
  match normalize schemas r with
  | Except.error _ =>
      { st with stats := { st.stats with skipped := st.stats.skipped + 1 } }
  | Except.ok e =>
      let k := entityKey e
      let h := entityHash schemas e
      match decideAction oldCursor k h with
      | Action.Insert =>
          { st with
            stats := { st.stats with inserted := st.stats.inserted + 1 }
            newCursor := st.newCursor ++ [(k, h)]
            dest := upsert st.dest k h
            writes := st.writes ++ [(Action.Insert, k)]
            seen := st.seen ++ [k] }
      | Action.Update =>
          { st with
            stats := { st.stats with updated := st.stats.updated + 1 }
            newCursor := st.newCursor ++ [(k, h)]
            dest := upsert st.dest k h
            writes := st.writes ++ [(Action.Update, k)]
            seen := st.seen ++ [k] }
      | Action.Skip =>
          { st with
            stats := { st.stats with skipped := st.stats.skipped + 1 }
            newCursor := st.newCursor ++ [(k, h)]
            seen := st.seen ++ [k] }
      | Action.Delete => st

/-- The observable result of one Sync Job run. -/
structure RunResult where
  status : JobStatus
  stats : Stats
  cursor : Cursor
  dest : List (Key × Nat)
  writes : List (Action × Key)
deriving DecidableEq

/-- Modelled from the spec: one full Sync Job run (the missing pipeline) —
process every record against the prior cursor, then reconcile: every
previously tracked key not observed this run is deleted from the
destination and dropped from the cursor; the persisted cursor checkpoint
holds exactly the keys observed this run with their new hashes. -/
def runJob (schemas : Schemas) (oldCursor : Cursor) (dest0 : List (Key × Nat))
    (records : List RawRecord) : RunResult :=
  let st := records.foldl (processRecord schemas oldCursor) (initState dest0)
  let dels := reconcile oldCursor st.seen
  { status := JobStatus.Completed
  , stats := { st.stats with deleted := dels.length }
  , cursor := st.newCursor
  , dest := st.dest.filter (fun kv => decide (¬ kv.1 ∈ dels))
  , writes := st.writes ++ dels.map (fun k => (Action.Delete, k)) }

/-- The entities of the records that normalize successfully, in order. -/
def okEntities (schemas : Schemas) (records : List RawRecord) : List Entity :=
  records.filterMap (fun r => (normalize schemas r).toOption)

/-- The keys observed by a run: the keys of the records that normalize. -/
def seenKeys (schemas : Schemas) (records : List RawRecord) : List Key :=
  (okEntities schemas records).map entityKey

/-- The entity a raw record normalizes to when its schema check passes. -/
def rawEntity (r : RawRecord) : Entity :=
  { entityType := r.entityType, entityId := r.entityId, payload := r.fields }

/-- How many of a run's records normalize successfully. -/
def okCount (schemas : Schemas) (records : List RawRecord) : Nat :=
  (okEntities schemas records).length

/-- How many of a run's records raise `SchemaViolation`. -/
def violationCount (schemas : Schemas) (records : List RawRecord) : Nat :=
  (records.filter (fun r => !(normalize schemas r).toOption.isSome)).length

/-! ## Commit ordering events (destination write vs cursor advance) -/

/-- An observable commit event of a run: a destination write for a key, or
the cursor advance that stores the key's new hash. -/
inductive Ev where
  | writeDest (k : Key)
  | advanceCursor (k : Key)
deriving DecidableEq

/-- Modelled from the spec: the commit events one record contributes —
for an `Insert` or `Update` decision the destination is written first and
the cursor is advanced second; a skipped or violating record commits
nothing new. -/
def entityEvents (schemas : Schemas) (oldCursor : Cursor) (r : RawRecord) : List Ev :=
  match normalize schemas r with
  | Except.error _ => []
  | Except.ok e =>
      let k := entityKey e
      match decideAction oldCursor k (entityHash schemas e) with
      | Action.Insert => [Ev.writeDest k, Ev.advanceCursor k]
      | Action.Update => [Ev.writeDest k, Ev.advanceCursor k]
      | _ => []

/-- Modelled from the spec: the ordered event trace of one Sync Job run; a
crash exposes an arbitrary prefix of this trace. -/
def jobTrace (schemas : Schemas) (oldCursor : Cursor) : List RawRecord → List Ev
  | [] => []
  | r :: rs => entityEvents schemas oldCursor r ++ jobTrace schemas oldCursor rs

/-- Traces made of per-entity blocks in which the destination write comes
directly before the matching cursor advance. -/
inductive GoodTrace : List Ev → Prop where
  | nil : GoodTrace []
  | block (k : Key) (t : List Ev) : GoodTrace t →
      GoodTrace (Ev.writeDest k :: Ev.advanceCursor k :: t)

/-! ## Transformer DAG engine -/

/-- One transformation stage: a pure function from an entity to zero or
more output entities, or a stage failure. -/
abbrev Stage := Entity → Except String (List Entity)

/-- Modelled from the spec: a Transformer DAG restricted to fan-out-only
forests — its stages listed in the fixed topological order (the missing
Transformer DAG Engine component). -/
abbrev Dag := List Stage

/-- Apply one stage to a whole frontier, concatenating the fan-out; the
lineage fails as soon as the stage fails on any frontier entity. -/
def applyStage (s : Stage) : List Entity → Except String (List Entity)
  | [] => Except.ok []
  | e :: es => do
      let out ← s e
      let outs ← applyStage s es
      pure (out ++ outs)

/-- Run the remaining stages, in topological order, over a frontier. -/
def runStages (dag : Dag) (frontier : List Entity) : Except String (List Entity) :=
  match dag with
  | [] => Except.ok frontier
  | s :: rest =>
      match applyStage s frontier with
      | Except.error m => Except.error m
      | Except.ok next => runStages rest next

/-- Modelled from the spec: `run(entity, dag)` — one source entity's
lineage through the whole DAG, failed as a unit if any stage fails. -/
def runLineage (dag : Dag) (e : Entity) : Except String (List Entity) :=
  runStages dag [e]

/-- The per-entity outcomes of a batch: each source entity paired with its
lineage result, independent of its siblings. -/
def processBatch (dag : Dag) (batch : List Entity) : List (Entity × Except String (List Entity)) :=
  batch.map (fun e => (e, runLineage dag e))

/-- Modelled from the spec: the commit batch — the concatenated outputs of
exactly the lineages that succeeded; a failed lineage contributes
nothing (no partial-lineage commits). -/
def commitBatch (dag : Dag) : List Entity → List Entity
  | [] => []
  | e :: es =>
      (match runLineage dag e with
       | Except.ok out => out
       | Except.error _ => []) ++ commitBatch dag es

/-! ## Orchestrator: job lifecycle and admission control -/

/-- One Sync Job as the orchestrator tracks it. -/
structure Job where
  jobId : Nat
  connectionId : Nat
  status : JobStatus
  stats : Stats
deriving DecidableEq

/-- The scheduler state: the list of jobs the orchestrator tracks, in
submission order. -/
abbrev Sched := List Job

/-- How many jobs of a scheduler state are `Running` for a connection. -/
def runningFor (s : Sched) (c : Nat) : Nat :=
  (s.filter (fun j => decide (j.connectionId = c ∧ j.status = JobStatus.Running))).length

/-- Modelled from the spec: the Sync Orchestrator's transitions (the
missing component) — submission adds a `Pending` job; dispatch moves a
`Pending` job to `Running` only when the admission check finds no other
`Running` job for the same connection; a `Running` job may update its
stats; a `Running` job finishes into a terminal status.  Terminal jobs
are never touched. -/
inductive SchedStep : Sched → Sched → Prop where
  | submit (s : Sched) (j : Job) (hp : j.status = JobStatus.Pending) :
      SchedStep s (s ++ [j])
  | dispatch (pre post : List Job) (j : Job) (hp : j.status = JobStatus.Pending)
      (hadm : ∀ j' ∈ pre ++ post,
        j'.connectionId = j.connectionId → j'.status ≠ JobStatus.Running) :
      SchedStep (pre ++ j :: post) (pre ++ { j with status := JobStatus.Running } :: post)
  | progress (pre post : List Job) (j : Job) (hr : j.status = JobStatus.Running)
      (newStats : Stats) :
      SchedStep (pre ++ j :: post) (pre ++ { j with stats := newStats } :: post)
  | finish (pre post : List Job) (j : Job) (hr : j.status = JobStatus.Running)
      (st : JobStatus) (hst : st.isTerminal = true) :
      SchedStep (pre ++ j :: post) (pre ++ { j with status := st } :: post)

/-- The scheduler states reachable from the empty initial state. -/
inductive Reachable : Sched → Prop where
  | init : Reachable []
  | step {s s' : Sched} : Reachable s → SchedStep s s' → Reachable s'

/-- The job status transitions the spec allows: `Pending → Running` and
`Running →` a terminal status. -/
def allowedTransition (a b : JobStatus) : Prop :=
  (a = JobStatus.Pending ∧ b = JobStatus.Running) ∨
  (a = JobStatus.Running ∧ b.isTerminal = true)

/-- How one scheduler step may change the job held at one position: either
it is untouched, or it keeps its identity and moves along an allowed
edge of the job lifecycle. -/
def jobEvolve (a b : Job) : Prop :=
  a = b ∨
  (b.jobId = a.jobId ∧ b.connectionId = a.connectionId ∧
    ((a.status = JobStatus.Pending ∧ b.status = JobStatus.Running ∧ b.stats = a.stats) ∨
     (a.status = JobStatus.Running ∧ b.status = JobStatus.Running) ∨
     (a.status = JobStatus.Running ∧ b.status.isTerminal = true)))

/-! ## Shared helper lemmas -/

theorem decideAction_ne_delete (cursor : Cursor) (k : Key) (h : Nat) :
    decideAction cursor k h ≠ Action.Delete := by
  unfold decideAction
  cases cursorLookup k cursor with
  | none => simp
  | some h0 =>
      by_cases hh : h0 = h <;> simp [hh]

/-! ## Claim theorems -/

/-- C10: the frontend config object is total and defaulted — `apiUrl` is
the `VITE_API_URL` value when set and non-empty and
`http://localhost:8000` otherwise, `environment` falls back to
`development`, and `version` is the constant `1.0.0`. -/
theorem config_total_defaulted (env : ViteEnv) :
    (∀ s, env.VITE_API_URL = some s → s ≠ "" → (config env).apiUrl = s)
    ∧ ((env.VITE_API_URL = none ∨ env.VITE_API_URL = some "") →
        (config env).apiUrl = "http://localhost:8000")
    ∧ (∀ s, env.MODE = some s → s ≠ "" → (config env).environment = s)
    ∧ ((env.MODE = none ∨ env.MODE = some "") →
        (config env).environment = "development")
    ∧ (config env).version = "1.0.0" := by
  refine ⟨?_, ?_, ?_, ?_, rfl⟩
  · intro s hs hne
    simp [config, jsOrDefault, hs, hne]
  · rintro (hn | he)
    · simp [config, jsOrDefault, hn]
    · simp [config, jsOrDefault, he]
  · intro s hs hne
    simp [config, jsOrDefault, hs, hne]
  · rintro (hn | he)
    · simp [config, jsOrDefault, hn]
    · simp [config, jsOrDefault, he]

theorem config_total_defaulted_witness :
    (config ⟨some "https://api.example.com", some ""⟩).apiUrl = "https://api.example.com"
    ∧ (config ⟨some "https://api.example.com", some ""⟩).environment = "development" :=
  ⟨(config_total_defaulted ⟨some "https://api.example.com", some ""⟩).1
      "https://api.example.com" rfl (by decide),
   (config_total_defaulted ⟨some "https://api.example.com", some ""⟩).2.2.2.1
      (Or.inr rfl)⟩

/-- C2: `decide` returns `Insert` when the cursor holds no prior hash for
the key, `Skip` when the stored hash equals the entity's content hash,
`Update` when it differs, and no other action (in particular never
`Delete`). -/
theorem decideAction_spec (cursor : Cursor) (k : Key) (h : Nat) :
    (cursorLookup k cursor = none → decideAction cursor k h = Action.Insert)
    ∧ (∀ h0, cursorLookup k cursor = some h0 →
        (h0 = h → decideAction cursor k h = Action.Skip)
        ∧ (h0 ≠ h → decideAction cursor k h = Action.Update))
    ∧ decideAction cursor k h ≠ Action.Delete := by
  refine ⟨?_, ?_, decideAction_ne_delete cursor k h⟩
  · intro hnone
    simp [decideAction, hnone]
  · intro h0 hsome
    constructor
    · intro he
      simp [decideAction, hsome, he]
    · intro hne
      simp [decideAction, hsome, hne]

theorem decideAction_spec_witness :
    decideAction [] ("ticket", "1") 5 = Action.Insert
    ∧ decideAction [((("ticket", "1") : Key), 5)] ("ticket", "1") 5 = Action.Skip
    ∧ decideAction [((("ticket", "1") : Key), 4)] ("ticket", "1") 5 = Action.Update :=
  ⟨(decideAction_spec [] ("ticket", "1") 5).1 rfl,
   ((decideAction_spec [((("ticket", "1") : Key), 5)] ("ticket", "1") 5).2.1 5 rfl).1 rfl,
   ((decideAction_spec [((("ticket", "1") : Key), 4)] ("ticket", "1") 5).2.1 4 rfl).2 (by decide)⟩

theorem semanticKeys_nodup (ex : List String) (p : Payload) :
    (semanticKeys ex p).Nodup :=
  (List.nodup_dedup _).filter _

theorem mem_semanticKeys (ex : List String) (p : Payload) (k : String) :
    k ∈ semanticKeys ex p ↔ (k ∈ payloadKeys p ∧ ¬ k ∈ ex) := by
  simp [semanticKeys]

/-- C3: content hashing is deterministic and insensitive to payload field
ordering — two payloads that agree as mappings on all non-excluded
fields produce the same `content_hash`. -/
theorem contentHash_order_insensitive (ex : List String) (p q : Payload)
    (hpq : ∀ k ∈ payloadKeys p, ¬ k ∈ ex → k ∈ payloadKeys q)
    (hqp : ∀ k ∈ payloadKeys q, ¬ k ∈ ex → k ∈ payloadKeys p)
    (hval : ∀ k ∈ payloadKeys p, ¬ k ∈ ex → List.lookup k p = List.lookup k q) :
    contentHash ex p = contentHash ex q := by
  have hperm : (semanticKeys ex p).Perm (semanticKeys ex q) := by
    rw [List.perm_ext_iff_of_nodup (semanticKeys_nodup ex p) (semanticKeys_nodup ex q)]
    intro k
    rw [mem_semanticKeys, mem_semanticKeys]
    constructor
    · rintro ⟨hk, hex⟩
      exact ⟨hpq k hk hex, hex⟩
    · rintro ⟨hk, hex⟩
      exact ⟨hqp k hk hex, hex⟩
  have hmapeq : (semanticKeys ex p).map (entryDigest p)
      = (semanticKeys ex p).map (entryDigest q) := by
    apply List.map_congr_left
    intro k hk
    rcases (mem_semanticKeys ex p k).1 hk with ⟨hkp, hex⟩
    unfold entryDigest serializeEntry
    rw [hval k hkp hex]
  unfold contentHash
  rw [hmapeq]
  rw [List.Perm.sum_eq (hperm.map (entryDigest q))]

theorem contentHash_order_insensitive_witness :
    contentHash ["lastViewed"]
        [("b", "2"), ("a", "1"), ("lastViewed", "9")]
      = contentHash ["lastViewed"]
        [("a", "1"), ("b", "2"), ("lastViewed", "8")] :=
  contentHash_order_insensitive ["lastViewed"]
    [("b", "2"), ("a", "1"), ("lastViewed", "9")]
    [("a", "1"), ("b", "2"), ("lastViewed", "8")]
    (by decide) (by decide) (by decide)

theorem commitBatch_append (dag : Dag) (b1 b2 : List Entity) :
    commitBatch dag (b1 ++ b2) = commitBatch dag b1 ++ commitBatch dag b2 := by
  induction b1 with
  | nil => simp [commitBatch]
  | cons e es ih =>
      simp only [List.cons_append, commitBatch, List.append_eq, ih, List.append_assoc]

theorem processBatch_append (dag : Dag) (b1 b2 : List Entity) :
    processBatch dag (b1 ++ b2) = processBatch dag b1 ++ processBatch dag b2 := by
  simp [processBatch]

/-- C9: lineage isolation in the Transformer DAG Engine — each entity's
batch outcome is its own lineage result, independent of its siblings; a
successful lineage is committed in full even when siblings fail, and a
failed lineage contributes nothing to the commit batch (no prefix of it
is committed). -/
theorem lineage_isolation (dag : Dag) (b1 b2 : List Entity) (e : Entity) :
    (processBatch dag (b1 ++ e :: b2)
      = processBatch dag b1 ++ (e, runLineage dag e) :: processBatch dag b2)
    ∧ (∀ out, runLineage dag e = Except.ok out →
        commitBatch dag (b1 ++ e :: b2)
          = commitBatch dag b1 ++ (out ++ commitBatch dag b2))
    ∧ (∀ m, runLineage dag e = Except.error m →
        commitBatch dag (b1 ++ e :: b2)
          = commitBatch dag b1 ++ commitBatch dag b2) := by
  refine ⟨by simp [processBatch], ?_, ?_⟩
  · intro out hout
    rw [commitBatch_append]
    simp only [commitBatch, hout]
  · intro m hm
    rw [commitBatch_append]
    simp only [commitBatch, hm, List.nil_append]

theorem lineage_isolation_witness :
    commitBatch
        [fun e => if e.entityId = "bad" then Except.error "StageFailure" else Except.ok [e]]
        [⟨"doc", "a", []⟩, ⟨"doc", "bad", []⟩, ⟨"doc", "b", []⟩]
      = commitBatch
          [fun e => if e.entityId = "bad" then Except.error "StageFailure" else Except.ok [e]]
          [⟨"doc", "a", []⟩]
        ++ commitBatch
          [fun e => if e.entityId = "bad" then Except.error "StageFailure" else Except.ok [e]]
          [⟨"doc", "b", []⟩] :=
  (lineage_isolation
      [fun e => if e.entityId = "bad" then Except.error "StageFailure" else Except.ok [e]]
      [⟨"doc", "a", []⟩] [⟨"doc", "b", []⟩] ⟨"doc", "bad", []⟩).2.2
    "StageFailure" rfl

theorem goodTrace_jobTrace (schemas : Schemas) (oldCursor : Cursor)
    (records : List RawRecord) : GoodTrace (jobTrace schemas oldCursor records) := by
  induction records with
  | nil => exact GoodTrace.nil
  | cons r rs ih =>
      show GoodTrace (entityEvents schemas oldCursor r ++ jobTrace schemas oldCursor rs)
      unfold entityEvents
      cases hn : normalize schemas r with
      | error m => simpa using ih
      | ok e =>
          cases hd : decideAction oldCursor (entityKey e) (entityHash schemas e) with
          | Insert =>
              simp only [hd, List.cons_append, List.nil_append]
              exact GoodTrace.block (entityKey e) _ ih
          | Update =>
              simp only [hd, List.cons_append, List.nil_append]
              exact GoodTrace.block (entityKey e) _ ih
          | Skip =>
              simpa [hd] using ih
          | Delete =>
              simpa [hd] using ih

theorem goodTrace_prefix_write {t : List Ev} (hg : GoodTrace t) :
    ∀ (pre : List Ev) (k : Key), pre <+: t →
      Ev.advanceCursor k ∈ pre → Ev.writeDest k ∈ pre := by
  induction hg with
  | nil =>
      intro pre k hpre hadv
      rw [List.prefix_nil.1 hpre] at hadv
      simp at hadv
  | block k0 t ht ih =>
      intro pre k hpre hadv
      cases pre with
      | nil => simp at hadv
      | cons x pre1 =>
          rcases List.cons_prefix_cons.1 hpre with ⟨hx, hpre1⟩
          subst hx
          cases pre1 with
          | nil =>
              simp at hadv
          | cons y pre2 =>
              rcases List.cons_prefix_cons.1 hpre1 with ⟨hy, hpre2⟩
              subst hy
              rcases List.mem_cons.1 hadv with h1 | h1
              · exact absurd h1 (by simp)
              · rcases List.mem_cons.1 h1 with h2 | h2
                · have hk : k = k0 := by simpa using h2
                  subst hk
                  exact List.mem_cons_self _ _
                · have := ih pre2 k hpre2 h2
                  exact List.mem_cons_of_mem _ (List.mem_cons_of_mem _ this)

/-- C5: the cursor is never advanced for an entity whose destination write
has not been committed — in every crash-exposed prefix of a job's commit
trace, a cursor advance for a key is preceded by the destination write
for that key. -/
theorem cursor_advance_after_write (schemas : Schemas) (oldCursor : Cursor)
    (records : List RawRecord) (pre : List Ev) (k : Key)
    (hpre : pre <+: jobTrace schemas oldCursor records)
    (hadv : Ev.advanceCursor k ∈ pre) :
    Ev.writeDest k ∈ pre :=
  goodTrace_prefix_write (goodTrace_jobTrace schemas oldCursor records) pre k hpre hadv

theorem cursor_advance_after_write_witness :
    Ev.writeDest (("ticket", "1") : Key)
      ∈ [Ev.writeDest (("ticket", "1") : Key), Ev.advanceCursor (("ticket", "1") : Key)] :=
  cursor_advance_after_write (fun _ => ⟨[], []⟩) [] [⟨"ticket", "1", [("a", "x")]⟩]
    [Ev.writeDest ("ticket", "1"), Ev.advanceCursor ("ticket", "1")] ("ticket", "1")
    ⟨[], by decide⟩ (by decide)

theorem processRecord_eq_error (schemas : Schemas) (oldCursor : Cursor) (st : RunState)
    (r : RawRecord) (m : String) (hn : normalize schemas r = Except.error m) :
    processRecord schemas oldCursor st r
      = { st with stats := { st.stats with skipped := st.stats.skipped + 1 } } := by
  simp [processRecord, hn]

theorem processRecord_eq_insert (schemas : Schemas) (oldCursor : Cursor) (st : RunState)
    (r : RawRecord) (e : Entity) (hn : normalize schemas r = Except.ok e)
    (hd : decideAction oldCursor (entityKey e) (entityHash schemas e) = Action.Insert) :
    processRecord schemas oldCursor st r
      = { st with
          stats := { st.stats with inserted := st.stats.inserted + 1 }
          newCursor := st.newCursor ++ [(entityKey e, entityHash schemas e)]
          dest := upsert st.dest (entityKey e) (entityHash schemas e)
          writes := st.writes ++ [(Action.Insert, entityKey e)]
          seen := st.seen ++ [entityKey e] } := by
  simp [processRecord, hn, hd]

theorem processRecord_eq_update (schemas : Schemas) (oldCursor : Cursor) (st : RunState)
    (r : RawRecord) (e : Entity) (hn : normalize schemas r = Except.ok e)
    (hd : decideAction oldCursor (entityKey e) (entityHash schemas e) = Action.Update) :
    processRecord schemas oldCursor st r
      = { st with
          stats := { st.stats with updated := st.stats.updated + 1 }
          newCursor := st.newCursor ++ [(entityKey e, entityHash schemas e)]
          dest := upsert st.dest (entityKey e) (entityHash schemas e)
          writes := st.writes ++ [(Action.Update, entityKey e)]
          seen := st.seen ++ [entityKey e] } := by
  simp [processRecord, hn, hd]

theorem processRecord_eq_skip (schemas : Schemas) (oldCursor : Cursor) (st : RunState)
    (r : RawRecord) (e : Entity) (hn : normalize schemas r = Except.ok e)
    (hd : decideAction oldCursor (entityKey e) (entityHash schemas e) = Action.Skip) :
    processRecord schemas oldCursor st r
      = { st with
          stats := { st.stats with skipped := st.stats.skipped + 1 }
          newCursor := st.newCursor ++ [(entityKey e, entityHash schemas e)]
          seen := st.seen ++ [entityKey e] } := by
  simp [processRecord, hn, hd]

theorem okEntities_cons_error (schemas : Schemas) (r : RawRecord) (rs : List RawRecord)
    (m : String) (hn : normalize schemas r = Except.error m) :
    okEntities schemas (r :: rs) = okEntities schemas rs := by
  simp [okEntities, List.filterMap_cons, hn, Except.toOption]

theorem okEntities_cons_ok (schemas : Schemas) (r : RawRecord) (rs : List RawRecord)
    (e : Entity) (hn : normalize schemas r = Except.ok e) :
    okEntities schemas (r :: rs) = e :: okEntities schemas rs := by
  simp [okEntities, List.filterMap_cons, hn, Except.toOption]

theorem runState_components (schemas : Schemas) (oldCursor : Cursor) :
    ∀ (records : List RawRecord) (st : RunState),
      (records.foldl (processRecord schemas oldCursor) st).newCursor
        = st.newCursor ++ (okEntities schemas records).map
            (fun e => (entityKey e, entityHash schemas e))
      ∧ (records.foldl (processRecord schemas oldCursor) st).seen
        = st.seen ++ seenKeys schemas records
      ∧ (∀ k, (Action.Delete, k) ∈ (records.foldl (processRecord schemas oldCursor) st).writes
          ↔ (Action.Delete, k) ∈ st.writes) := by
  intro records
  induction records with
  | nil =>
      intro st
      simp [okEntities, seenKeys]
  | cons r rs ih =>
      intro st
      rw [List.foldl_cons]
      rcases ih (processRecord schemas oldCursor st r) with ⟨hc, hs, hw⟩
      cases hn : normalize schemas r with
      | error m =>
          rw [processRecord_eq_error schemas oldCursor st r m hn] at hc hs hw ⊢
          refine ⟨?_, ?_, ?_⟩
          · rw [hc, okEntities_cons_error schemas r rs m hn]
          · rw [hs]
            simp [seenKeys, okEntities_cons_error schemas r rs m hn]
          · intro k
            rw [hw k]
      | ok e =>
          cases hd : decideAction oldCursor (entityKey e) (entityHash schemas e) with
          | Insert =>
              rw [processRecord_eq_insert schemas oldCursor st r e hn hd] at hc hs hw ⊢
              refine ⟨?_, ?_, ?_⟩
              · rw [hc, okEntities_cons_ok schemas r rs e hn]
                simp
              · rw [hs]
                simp [seenKeys, okEntities_cons_ok schemas r rs e hn]
              · intro k
                rw [hw k]
                simp
          | Update =>
              rw [processRecord_eq_update schemas oldCursor st r e hn hd] at hc hs hw ⊢
              refine ⟨?_, ?_, ?_⟩
              · rw [hc, okEntities_cons_ok schemas r rs e hn]
                simp
              · rw [hs]
                simp [seenKeys, okEntities_cons_ok schemas r rs e hn]
              · intro k
                rw [hw k]
                simp
          | Skip =>
              rw [processRecord_eq_skip schemas oldCursor st r e hn hd] at hc hs hw ⊢
              refine ⟨?_, ?_, ?_⟩
              · rw [hc, okEntities_cons_ok schemas r rs e hn]
                simp
              · rw [hs]
                simp [seenKeys, okEntities_cons_ok schemas r rs e hn]
              · intro k
                rw [hw k]
          | Delete =>
              exact absurd hd (decideAction_ne_delete oldCursor (entityKey e) (entityHash schemas e))

theorem normalize_ok_eq (schemas : Schemas) (r : RawRecord) (e : Entity)
    (hn : normalize schemas r = Except.ok e) : e = rawEntity r := by
  unfold normalize at hn
  split at hn
  · injection hn with h
    exact h.symm
  · cases hn

theorem normalize_isSome_ok (schemas : Schemas) (r : RawRecord)
    (hs : (normalize schemas r).toOption.isSome = true) :
    normalize schemas r = Except.ok (rawEntity r) := by
  cases hn : normalize schemas r with
  | error m =>
      rw [hn] at hs
      simp [Except.toOption] at hs
  | ok e =>
      have he : e = rawEntity r := normalize_ok_eq schemas r e hn
      rw [← he]

theorem okCount_cons_error (schemas : Schemas) (r : RawRecord) (rs : List RawRecord)
    (m : String) (hn : normalize schemas r = Except.error m) :
    okCount schemas (r :: rs) = okCount schemas rs := by
  simp [okCount, okEntities_cons_error schemas r rs m hn]

theorem okCount_cons_ok (schemas : Schemas) (r : RawRecord) (rs : List RawRecord)
    (e : Entity) (hn : normalize schemas r = Except.ok e) :
    okCount schemas (r :: rs) = okCount schemas rs + 1 := by
  simp [okCount, okEntities_cons_ok schemas r rs e hn]

theorem violationCount_cons_error (schemas : Schemas) (r : RawRecord) (rs : List RawRecord)
    (m : String) (hn : normalize schemas r = Except.error m) :
    violationCount schemas (r :: rs) = violationCount schemas rs + 1 := by
  simp [violationCount, List.filter_cons, hn, Except.toOption]

theorem violationCount_cons_ok (schemas : Schemas) (r : RawRecord) (rs : List RawRecord)
    (e : Entity) (hn : normalize schemas r = Except.ok e) :
    violationCount schemas (r :: rs) = violationCount schemas rs := by
  simp [violationCount, List.filter_cons, hn, Except.toOption]

theorem foldl_fresh_stats (schemas : Schemas) :
    ∀ (records : List RawRecord) (st : RunState),
      (records.foldl (processRecord schemas []) st).stats.inserted
        = st.stats.inserted + okCount schemas records
      ∧ (records.foldl (processRecord schemas []) st).stats.skipped
        = st.stats.skipped + violationCount schemas records
      ∧ (records.foldl (processRecord schemas []) st).stats.updated = st.stats.updated
      ∧ (records.foldl (processRecord schemas []) st).stats.failed = st.stats.failed := by
  intro records
  induction records with
  | nil =>
      intro st
      simp [okCount, okEntities, violationCount]
  | cons r rs ih =>
      intro st
      rw [List.foldl_cons]
      cases hn : normalize schemas r with
      | error m =>
          rcases ih (processRecord schemas [] st r) with ⟨h1, h2, h3, h4⟩
          rw [processRecord_eq_error schemas [] st r m hn] at h1 h2 h3 h4 ⊢
          dsimp only at h1 h2 h3 h4 ⊢
          rw [okCount_cons_error schemas r rs m hn,
            violationCount_cons_error schemas r rs m hn]
          exact ⟨by rw [h1], by rw [h2]; omega, by rw [h3], by rw [h4]⟩
      | ok e =>
          have hd : decideAction [] (entityKey e) (entityHash schemas e) = Action.Insert := rfl
          rcases ih (processRecord schemas [] st r) with ⟨h1, h2, h3, h4⟩
          rw [processRecord_eq_insert schemas [] st r e hn hd] at h1 h2 h3 h4 ⊢
          dsimp only at h1 h2 h3 h4 ⊢
          rw [okCount_cons_ok schemas r rs e hn,
            violationCount_cons_ok schemas r rs e hn]
          exact ⟨by rw [h1]; omega, by rw [h2], by rw [h3], by rw [h4]⟩

/-- C8: records raising `SchemaViolation` during normalization are skipped
and counted while the job still completes — over a fresh cursor the run
completes with `inserted` counting the normalizing records and `skipped`
counting the violating ones; in particular 3 records of which one fails
normalization give a `Completed` job with stats `{inserted: 2, skipped: 1}`. -/
theorem schemaViolation_skipped_nonfatal (schemas : Schemas) (d0 : List (Key × Nat))
    (records : List RawRecord) :
    (runJob schemas [] d0 records).status = JobStatus.Completed
    ∧ (runJob schemas [] d0 records).stats.inserted = okCount schemas records
    ∧ (runJob schemas [] d0 records).stats.skipped = violationCount schemas records
    ∧ (runJob (fun _ => ⟨["name"], []⟩) [] []
        [⟨"issue", "1", [("name", "x")]⟩, ⟨"issue", "2", [("name", "y")]⟩,
          ⟨"issue", "3", []⟩]).status = JobStatus.Completed
    ∧ (runJob (fun _ => ⟨["name"], []⟩) [] []
        [⟨"issue", "1", [("name", "x")]⟩, ⟨"issue", "2", [("name", "y")]⟩,
          ⟨"issue", "3", []⟩]).stats = ⟨2, 0, 0, 1, 0⟩ := by
  rcases foldl_fresh_stats schemas records (initState d0) with ⟨h1, h2, h3, h4⟩
  refine ⟨rfl, ?_, ?_, by decide, by decide⟩
  · show ({ (List.foldl (processRecord schemas []) (initState d0) records).stats with
        deleted := (reconcile []
          (List.foldl (processRecord schemas []) (initState d0) records).seen).length }).inserted
      = okCount schemas records
    simpa [initState] using h1
  · show ({ (List.foldl (processRecord schemas []) (initState d0) records).stats with
        deleted := (reconcile []
          (List.foldl (processRecord schemas []) (initState d0) records).seen).length }).skipped
      = violationCount schemas records
    simpa [initState] using h2

theorem runJob_status (schemas : Schemas) (oldCursor : Cursor) (dest0 : List (Key × Nat))
    (records : List RawRecord) :
    (runJob schemas oldCursor dest0 records).status = JobStatus.Completed := rfl

theorem runJob_cursor (schemas : Schemas) (oldCursor : Cursor) (dest0 : List (Key × Nat))
    (records : List RawRecord) :
    (runJob schemas oldCursor dest0 records).cursor
      = (records.foldl (processRecord schemas oldCursor) (initState dest0)).newCursor := rfl

theorem runJob_writes (schemas : Schemas) (oldCursor : Cursor) (dest0 : List (Key × Nat))
    (records : List RawRecord) :
    (runJob schemas oldCursor dest0 records).writes
      = (records.foldl (processRecord schemas oldCursor) (initState dest0)).writes
        ++ (reconcile oldCursor
              (records.foldl (processRecord schemas oldCursor) (initState dest0)).seen).map
            (fun k => (Action.Delete, k)) := rfl

theorem runJob_dest (schemas : Schemas) (oldCursor : Cursor) (dest0 : List (Key × Nat))
    (records : List RawRecord) :
    (runJob schemas oldCursor dest0 records).dest
      = (records.foldl (processRecord schemas oldCursor) (initState dest0)).dest.filter
          (fun kv => decide (¬ kv.1 ∈ reconcile oldCursor
            (records.foldl (processRecord schemas oldCursor) (initState dest0)).seen)) := rfl

theorem runJob_stats (schemas : Schemas) (oldCursor : Cursor) (dest0 : List (Key × Nat))
    (records : List RawRecord) :
    (runJob schemas oldCursor dest0 records).stats
      = { (records.foldl (processRecord schemas oldCursor) (initState dest0)).stats with
          deleted := (reconcile oldCursor
            (records.foldl (processRecord schemas oldCursor) (initState dest0)).seen).length }
      := rfl

theorem mem_reconcile (oldCursor : Cursor) (seen : List Key) (k : Key) :
    k ∈ reconcile oldCursor seen ↔ (k ∈ oldCursor.map Prod.fst ∧ ¬ k ∈ seen) := by
  simp [reconcile]

theorem seenKeys_mem (schemas : Schemas) (records : List RawRecord) (k : Key)
    (hk : k ∈ seenKeys schemas records) : ∃ r ∈ records, recordKey r = k := by
  rcases List.mem_map.1 hk with ⟨e, he, hke⟩
  rcases List.mem_filterMap.1 he with ⟨r, hr, hre⟩
  refine ⟨r, hr, ?_⟩
  cases hn : normalize schemas r with
  | error m =>
      rw [hn] at hre
      simp [Except.toOption] at hre
  | ok e0 =>
      rw [hn] at hre
      simp [Except.toOption] at hre
      rw [← hke, ← hre, normalize_ok_eq schemas r e0 hn]
      rfl

/-- C4: after a job completes, a deletion action is emitted exactly for
the previously tracked keys not observed in the current run; a key
tracked in the cursor whose records are absent from the source this run
is no longer present in the destination. -/
theorem reconcile_deletion_propagation (schemas : Schemas) (c0 : Cursor)
    (d0 : List (Key × Nat)) (records : List RawRecord) (k : Key) :
    ((Action.Delete, k) ∈ (runJob schemas c0 d0 records).writes ↔
        (k ∈ c0.map Prod.fst ∧ ¬ k ∈ seenKeys schemas records))
    ∧ (k ∈ c0.map Prod.fst → (∀ r ∈ records, recordKey r ≠ k) →
        ∀ kv ∈ (runJob schemas c0 d0 records).dest, kv.1 ≠ k) := by
  rcases runState_components schemas c0 records (initState d0) with ⟨_, hs, hw⟩
  have hseen0 : (initState d0).seen = [] := rfl
  have hwr0 : (initState d0).writes = [] := rfl
  rw [hseen0, List.nil_append] at hs
  simp only [hwr0] at hw
  constructor
  · rw [runJob_writes]
    constructor
    · intro hin
      rcases List.mem_append.1 hin with hin1 | hin2
      · rw [hw k] at hin1
        simp at hin1
      · rcases List.mem_map.1 hin2 with ⟨k1, hk1, hkk⟩
        have hk1k : k1 = k := congrArg Prod.snd hkk
        subst hk1k
        rw [hs] at hk1
        exact (mem_reconcile c0 (seenKeys schemas records) k1).1 hk1
    · intro hmem
      apply List.mem_append.2
      right
      apply List.mem_map.2
      refine ⟨k, ?_, rfl⟩
      rw [hs]
      exact (mem_reconcile c0 (seenKeys schemas records) k).2 hmem
  · intro hk0 hnone kv hkv
    rw [runJob_dest] at hkv
    rcases List.mem_filter.1 hkv with ⟨_, hkv2⟩
    have hkv3 : ¬ kv.1 ∈ reconcile c0
        (records.foldl (processRecord schemas c0) (initState d0)).seen := by
      simpa using hkv2
    intro hEq
    apply hkv3
    rw [hEq, hs]
    refine (mem_reconcile c0 (seenKeys schemas records) k).2 ⟨hk0, ?_⟩
    intro hseen
    rcases seenKeys_mem schemas records k hseen with ⟨r, hr, hrk⟩
    exact hnone r hr hrk

theorem reconcile_deletion_propagation_witness :
    (Action.Delete, (("ticket", "gone") : Key))
      ∈ (runJob (fun _ => ⟨[], []⟩) [(("ticket", "gone"), 7)] [(("ticket", "gone"), 7)]
          [⟨"ticket", "1", [("a", "x")]⟩]).writes :=
  (reconcile_deletion_propagation (fun _ => ⟨[], []⟩) [(("ticket", "gone"), 7)]
      [(("ticket", "gone"), 7)] [⟨"ticket", "1", [("a", "x")]⟩] ("ticket", "gone")).1.mpr
    ⟨by decide, by decide⟩

theorem okEntities_all_ok (schemas : Schemas) (records : List RawRecord)
    (hok : ∀ r ∈ records, (normalize schemas r).toOption.isSome = true) :
    okEntities schemas records = records.map rawEntity := by
  induction records with
  | nil => simp [okEntities]
  | cons r rs ih =>
      have hr := normalize_isSome_ok schemas r (hok r (List.mem_cons_self r rs))
      rw [okEntities_cons_ok schemas r rs (rawEntity r) hr, List.map_cons,
        ih (fun x hx => hok x (List.mem_cons_of_mem r hx))]

theorem cursorLookup_map_records (f : RawRecord → Nat) :
    ∀ (rs : List RawRecord), (rs.map recordKey).Nodup → ∀ r ∈ rs,
      cursorLookup (recordKey r) (rs.map (fun x => (recordKey x, f x))) = some (f r) := by
  intro rs
  induction rs with
  | nil =>
      intro _ r hr
      simp at hr
  | cons x xs ih =>
      intro hnd r hr
      have hnd1 : (¬ recordKey x ∈ xs.map recordKey) ∧ (xs.map recordKey).Nodup := by
        rw [List.map_cons] at hnd
        exact List.nodup_cons.1 hnd
      rw [List.map_cons]
      show (if recordKey x = recordKey r then some (f x)
        else cursorLookup (recordKey r) (xs.map (fun y => (recordKey y, f y)))) = some (f r)
      by_cases he : recordKey x = recordKey r
      · rcases List.mem_cons.1 hr with heq | hr1
        · subst heq
          simp
        · exact absurd (he ▸ List.mem_map_of_mem recordKey hr1) hnd1.1
      · rcases List.mem_cons.1 hr with heq | hr1
        · subst heq
          exact absurd rfl he
        · rw [if_neg he]
          exact ih hnd1.2 r hr1

theorem foldl_allskip (schemas : Schemas) (oldC : Cursor) :
    ∀ (records : List RawRecord) (st : RunState),
      (∀ r ∈ records, normalize schemas r = Except.ok (rawEntity r)
        ∧ decideAction oldC (entityKey (rawEntity r)) (entityHash schemas (rawEntity r))
            = Action.Skip) →
      (records.foldl (processRecord schemas oldC) st).stats
          = { st.stats with skipped := st.stats.skipped + records.length }
      ∧ (records.foldl (processRecord schemas oldC) st).writes = st.writes
      ∧ (records.foldl (processRecord schemas oldC) st).dest = st.dest := by
  intro records
  induction records with
  | nil =>
      intro st _
      exact ⟨rfl, rfl, rfl⟩
  | cons r rs ih =>
      intro st hall
      rcases hall r (List.mem_cons_self r rs) with ⟨hn, hd⟩
      rw [List.foldl_cons]
      rcases ih (processRecord schemas oldC st r)
          (fun x hx => hall x (List.mem_cons_of_mem r hx)) with ⟨h1, h2, h3⟩
      rw [processRecord_eq_skip schemas oldC st r (rawEntity r) hn hd] at h1 h2 h3 ⊢
      dsimp only at h1 h2 h3 ⊢
      refine ⟨?_, h2, h3⟩
      rw [h1]
      cases st.stats with
      | mk a b c d2 e2 =>
          dsimp only
          simp only [List.length_cons, Stats.mk.injEq]
          exact ⟨trivial, trivial, trivial, by omega, trivial⟩

/-- C1: running the same job twice with no source changes gives the `Skip`
action for every entity on the second run, zero destination writes on
the second run, and second-run stats
`{inserted: 0, updated: 0, deleted: 0, skipped: N}` for `N` entities. -/
theorem second_run_idempotent (schemas : Schemas) (c0 : Cursor) (d0 : List (Key × Nat))
    (records : List RawRecord)
    (hok : ∀ r ∈ records, (normalize schemas r).toOption.isSome = true)
    (hnodup : (records.map recordKey).Nodup) :
    (∀ r ∈ records, ∀ e, normalize schemas r = Except.ok e →
        decideAction (runJob schemas c0 d0 records).cursor (entityKey e)
          (entityHash schemas e) = Action.Skip)
    ∧ (runJob schemas (runJob schemas c0 d0 records).cursor
        (runJob schemas c0 d0 records).dest records).writes = []
    ∧ (runJob schemas (runJob schemas c0 d0 records).cursor
        (runJob schemas c0 d0 records).dest records).stats
      = ⟨0, 0, 0, records.length, 0⟩ := by
  have hcur : (runJob schemas c0 d0 records).cursor
      = records.map (fun r => (recordKey r, entityHash schemas (rawEntity r))) := by
    rw [runJob_cursor]
    rcases runState_components schemas c0 records (initState d0) with ⟨hc, _, _⟩
    rw [hc]
    have hc0 : (initState d0).newCursor = [] := rfl
    rw [hc0, List.nil_append, okEntities_all_ok schemas records hok, List.map_map]
    rfl
  have hskip : ∀ r ∈ records, ∀ e, normalize schemas r = Except.ok e →
      decideAction (runJob schemas c0 d0 records).cursor (entityKey e)
        (entityHash schemas e) = Action.Skip := by
    intro r hr e hn
    have he : e = rawEntity r := normalize_ok_eq schemas r e hn
    subst he
    rw [hcur]
    have hl := cursorLookup_map_records (fun x => entityHash schemas (rawEntity x))
      records hnodup r hr
    show decideAction _ (recordKey r) (entityHash schemas (rawEntity r)) = Action.Skip
    simp [decideAction, hl]
  refine ⟨hskip, ?_⟩
  have hall : ∀ r ∈ records, normalize schemas r = Except.ok (rawEntity r)
      ∧ decideAction (runJob schemas c0 d0 records).cursor (entityKey (rawEntity r))
          (entityHash schemas (rawEntity r)) = Action.Skip := by
    intro r hr
    have hn := normalize_isSome_ok schemas r (hok r hr)
    exact ⟨hn, hskip r hr (rawEntity r) hn⟩
  rcases foldl_allskip schemas (runJob schemas c0 d0 records).cursor records
      (initState (runJob schemas c0 d0 records).dest) hall with ⟨hst, hwr, _⟩
  rcases runState_components schemas (runJob schemas c0 d0 records).cursor records
      (initState (runJob schemas c0 d0 records).dest) with ⟨_, hs2, _⟩
  have hseen2 : (records.foldl
      (processRecord schemas (runJob schemas c0 d0 records).cursor)
      (initState (runJob schemas c0 d0 records).dest)).seen
      = records.map recordKey := by
    have hs0 : (initState (runJob schemas c0 d0 records).dest).seen = [] := rfl
    rw [hs2, hs0, List.nil_append, seenKeys, okEntities_all_ok schemas records hok,
      List.map_map]
    rfl
  have hdels : reconcile (runJob schemas c0 d0 records).cursor
      (records.foldl (processRecord schemas (runJob schemas c0 d0 records).cursor)
        (initState (runJob schemas c0 d0 records).dest)).seen = [] := by
    rw [hseen2, hcur]
    unfold reconcile
    rw [List.map_map]
    show ((records.map recordKey).dedup).filter
      (fun k => decide (¬ k ∈ records.map recordKey)) = []
    rw [List.Nodup.dedup hnodup]
    rw [List.filter_eq_nil_iff]
    intro a ha
    simp [ha]
  constructor
  · rw [runJob_writes, hwr, hdels]
    rfl
  · rw [runJob_stats, hst, hdels]
    have hi0 : (initState (runJob schemas c0 d0 records).dest).stats = ⟨0, 0, 0, 0, 0⟩ := rfl
    rw [hi0]
    simp

theorem second_run_idempotent_witness :
    (runJob (fun _ => Schema.mk [] [])
        (runJob (fun _ => Schema.mk [] []) [] []
          [⟨"ticket", "1", [("a", "x")]⟩, ⟨"ticket", "2", [("b", "y")]⟩]).cursor
        (runJob (fun _ => Schema.mk [] []) [] []
          [⟨"ticket", "1", [("a", "x")]⟩, ⟨"ticket", "2", [("b", "y")]⟩]).dest
        [⟨"ticket", "1", [("a", "x")]⟩, ⟨"ticket", "2", [("b", "y")]⟩]).writes = []
    ∧ (runJob (fun _ => Schema.mk [] [])
        (runJob (fun _ => Schema.mk [] []) [] []
          [⟨"ticket", "1", [("a", "x")]⟩, ⟨"ticket", "2", [("b", "y")]⟩]).cursor
        (runJob (fun _ => Schema.mk [] []) [] []
          [⟨"ticket", "1", [("a", "x")]⟩, ⟨"ticket", "2", [("b", "y")]⟩]).dest
        [⟨"ticket", "1", [("a", "x")]⟩, ⟨"ticket", "2", [("b", "y")]⟩]).stats
      = ⟨0, 0, 0, 2, 0⟩ :=
  (second_run_idempotent (fun _ => Schema.mk [] []) [] []
      [⟨"ticket", "1", [("a", "x")]⟩, ⟨"ticket", "2", [("b", "y")]⟩]
      (by decide) (by decide)).2

theorem isTerminal_ne_running (st : JobStatus) (hst : st.isTerminal = true) :
    st ≠ JobStatus.Running := by
  intro h
  subst h
  exact absurd hst (by decide)

theorem schedStep_runningFor_le (s s' : Sched) (h : SchedStep s s') (c : Nat)
    (hle : runningFor s c ≤ 1) : runningFor s' c ≤ 1 := by
  cases h with
  | submit s j hp =>
      have hpj : (decide (j.connectionId = c ∧ j.status = JobStatus.Running)) = false := by
        simp [hp]
      simp only [runningFor, List.filter_append, List.filter_cons, hpj, List.filter_nil,
        List.append_nil, Bool.false_eq_true, if_false]
      exact hle
  | dispatch pre post j hp hadm =>
      by_cases hc : j.connectionId = c
      · have hpre : pre.filter
            (fun x => decide (x.connectionId = c ∧ x.status = JobStatus.Running)) = [] := by
          rw [List.filter_eq_nil_iff]
          intro x hx
          simp only [decide_eq_true_eq, not_and]
          intro h1 h2
          exact hadm x (List.mem_append_left post hx) (h1.trans hc.symm) h2
        have hpost : post.filter
            (fun x => decide (x.connectionId = c ∧ x.status = JobStatus.Running)) = [] := by
          rw [List.filter_eq_nil_iff]
          intro x hx
          simp only [decide_eq_true_eq, not_and]
          intro h1 h2
          exact hadm x (List.mem_append_right pre hx) (h1.trans hc.symm) h2
        have hpj2 : (decide (({ j with status := JobStatus.Running } : Job).connectionId = c
            ∧ ({ j with status := JobStatus.Running } : Job).status = JobStatus.Running))
            = true := by
          simp [hc]
        simp only [runningFor, List.filter_append, List.filter_cons, hpj2, hpre, hpost]
        simp [hc]
      · simp only [runningFor, List.filter_append, List.filter_cons] at hle ⊢
        simp only [hp] at hle
        simp [hc] at hle ⊢
        exact hle
  | progress pre post j hr newStats =>
      simp only [runningFor, List.filter_append, List.filter_cons] at hle ⊢
      by_cases hcc : j.connectionId = c
      · simp [hr, hcc] at hle ⊢
        omega
      · simp [hr, hcc] at hle ⊢
        exact hle
  | finish pre post j hr st2 hst =>
      have hne : st2 ≠ JobStatus.Running := isTerminal_ne_running st2 hst
      by_cases hc : j.connectionId = c
      · simp only [runningFor, List.filter_append, List.filter_cons] at hle ⊢
        simp [hr, hc, hne] at hle ⊢
        omega
      · simp only [runningFor, List.filter_append, List.filter_cons] at hle ⊢
        simp [hr, hc, hne] at hle ⊢
        exact hle

/-- C6: at most one Sync Job per Connection is `Running` in every
reachable scheduler state — admission control never lets two jobs for
the same connection run concurrently. -/
theorem at_most_one_running (s : Sched) (hs : Reachable s) (c : Nat) :
    runningFor s c ≤ 1 := by
  induction hs with
  | init => simp [runningFor]
  | step hr hstep ih => exact schedStep_runningFor_le _ _ hstep c ih

theorem at_most_one_running_witness :
    runningFor [⟨1, 7, JobStatus.Running, ⟨0, 0, 0, 0, 0⟩⟩] 7 ≤ 1 :=
  at_most_one_running [⟨1, 7, JobStatus.Running, ⟨0, 0, 0, 0, 0⟩⟩]
    (Reachable.step
      (Reachable.step Reachable.init
        (SchedStep.submit [] ⟨1, 7, JobStatus.Pending, ⟨0, 0, 0, 0, 0⟩⟩ rfl))
      (SchedStep.dispatch [] [] ⟨1, 7, JobStatus.Pending, ⟨0, 0, 0, 0, 0⟩⟩ rfl
        (by intro j hj; simp at hj)))
    7

theorem get_append_left_eq (l tail : List Job) :
    ∀ (i : Nat) (hi : i < l.length) (hi2 : i < (l ++ tail).length),
      (l ++ tail).get ⟨i, hi2⟩ = l.get ⟨i, hi⟩ := by
  induction l with
  | nil =>
      intro i hi _
      simp at hi
  | cons a l ih =>
      intro i hi hi2
      cases i with
      | zero => rfl
      | succ n =>
          exact ih n (Nat.lt_of_succ_lt_succ hi) (Nat.lt_of_succ_lt_succ hi2)

theorem pointwise_middle (P : Job → Job → Prop) (hrefl : ∀ a, P a a) (x y : Job)
    (hxy : P x y) :
    ∀ (pre post : List Job) (i : Nat) (hi : i < (pre ++ x :: post).length)
      (hi2 : i < (pre ++ y :: post).length),
      P ((pre ++ x :: post).get ⟨i, hi⟩) ((pre ++ y :: post).get ⟨i, hi2⟩) := by
  intro pre
  induction pre with
  | nil =>
      intro post i hi hi2
      cases i with
      | zero => exact hxy
      | succ n => exact hrefl _
  | cons a pre ih =>
      intro post i hi hi2
      cases i with
      | zero => exact hrefl a
      | succ n => exact ih post n (Nat.lt_of_succ_lt_succ hi) (Nat.lt_of_succ_lt_succ hi2)

theorem schedStep_jobEvolve (s s' : Sched) (h : SchedStep s s') :
    ∀ (i : Nat) (hi : i < s.length) (hi2 : i < s'.length),
      jobEvolve (s.get ⟨i, hi⟩) (s'.get ⟨i, hi2⟩) := by
  cases h with
  | submit s j hp =>
      intro i hi hi2
      rw [get_append_left_eq s [j] i hi hi2]
      exact Or.inl rfl
  | dispatch pre post j hp hadm =>
      exact pointwise_middle jobEvolve (fun a => Or.inl rfl) j
        { j with status := JobStatus.Running }
        (Or.inr ⟨rfl, rfl, Or.inl ⟨hp, rfl, rfl⟩⟩) pre post
  | progress pre post j hr newStats =>
      exact pointwise_middle jobEvolve (fun a => Or.inl rfl) j
        { j with stats := newStats }
        (Or.inr ⟨rfl, rfl, Or.inr (Or.inl ⟨hr, hr⟩)⟩) pre post
  | finish pre post j hr st2 hst =>
      exact pointwise_middle jobEvolve (fun a => Or.inl rfl) j
        { j with status := st2 }
        (Or.inr ⟨rfl, rfl, Or.inr (Or.inr ⟨hr, hst⟩)⟩) pre post

theorem schedStep_terminal_frozen (s s' : Sched) (h : SchedStep s s') (i : Nat)
    (hi : i < s.length) (hi2 : i < s'.length)
    (ht : (s.get ⟨i, hi⟩).status.isTerminal = true) :
    s'.get ⟨i, hi2⟩ = s.get ⟨i, hi⟩ := by
  rcases schedStep_jobEvolve s s' h i hi hi2 with heq | ⟨_, _, hcase⟩
  · exact heq.symm
  · exfalso
    rcases hcase with ⟨ha, _, _⟩ | ⟨ha, _⟩ | ⟨ha, _⟩
    · rw [ha] at ht
      exact absurd ht (by decide)
    · rw [ha] at ht
      exact absurd ht (by decide)
    · rw [ha] at ht
      exact absurd ht (by decide)

theorem schedStep_length_le (s s' : Sched) (h : SchedStep s s') :
    s.length ≤ s'.length := by
  cases h with
  | submit s j hp => simp
  | dispatch pre post j hp hadm => simp
  | progress pre post j hr newStats => simp
  | finish pre post j hr st2 hst => simp

theorem rtc_length_le (s s' : Sched) (h : Relation.ReflTransGen SchedStep s s') :
    s.length ≤ s'.length := by
  induction h with
  | refl => exact Nat.le_refl _
  | tail hab hbc ih => exact Nat.le_trans ih (schedStep_length_le _ _ hbc)

theorem rtc_terminal_frozen (s s' : Sched) (h : Relation.ReflTransGen SchedStep s s') :
    ∀ (i : Nat) (hi : i < s.length) (hi2 : i < s'.length),
      (s.get ⟨i, hi⟩).status.isTerminal = true → s'.get ⟨i, hi2⟩ = s.get ⟨i, hi⟩ := by
  induction h with
  | refl =>
      intro i hi hi2 _
      rfl
  | @tail b c2 hab hbc ih =>
      intro i hi hi2 ht
      have hib : i < b.length := Nat.lt_of_lt_of_le hi (rtc_length_le s b hab)
      have hb := ih i hi hib ht
      have ht2 : (b.get ⟨i, hib⟩).status.isTerminal = true := by
        rw [hb]
        exact ht
      have hc := schedStep_terminal_frozen b c2 hbc i hib hi2 ht2
      rw [hc, hb]

/-- C7: a Sync Job's status follows only `Pending → Running` and
`Running →` terminal transitions, and once in a terminal status the job
— status, stats and all — never changes again, over any number of
scheduler steps. -/
theorem syncJob_lifecycle (s s' : Sched) :
    (SchedStep s s' → ∀ (i : Nat) (hi : i < s.length) (hi2 : i < s'.length),
      ((s.get ⟨i, hi⟩).status ≠ (s'.get ⟨i, hi2⟩).status →
        allowedTransition (s.get ⟨i, hi⟩).status (s'.get ⟨i, hi2⟩).status)
      ∧ ((s.get ⟨i, hi⟩).status.isTerminal = true → s'.get ⟨i, hi2⟩ = s.get ⟨i, hi⟩))
    ∧ (Relation.ReflTransGen SchedStep s s' →
      ∀ (i : Nat) (hi : i < s.length) (hi2 : i < s'.length),
        (s.get ⟨i, hi⟩).status.isTerminal = true → s'.get ⟨i, hi2⟩ = s.get ⟨i, hi⟩) := by
  constructor
  · intro h i hi hi2
    refine ⟨?_, schedStep_terminal_frozen s s' h i hi hi2⟩
    intro hne
    rcases schedStep_jobEvolve s s' h i hi hi2 with heq | ⟨_, _, hcase⟩
    · exact absurd (congrArg Job.status heq) hne
    · rcases hcase with ⟨ha, hb, _⟩ | ⟨ha, hb⟩ | ⟨ha, hb⟩
      · exact Or.inl ⟨ha, hb⟩
      · exact absurd (ha.trans hb.symm) hne
      · exact Or.inr ⟨ha, hb⟩
  · intro h
    exact rtc_terminal_frozen s s' h

theorem syncJob_lifecycle_witness :
    allowedTransition JobStatus.Running JobStatus.Completed :=
  ((syncJob_lifecycle [⟨1, 7, JobStatus.Running, ⟨0, 0, 0, 0, 0⟩⟩]
      [⟨1, 7, JobStatus.Completed, ⟨0, 0, 0, 0, 0⟩⟩]).1
    (SchedStep.finish [] [] ⟨1, 7, JobStatus.Running, ⟨0, 0, 0, 0, 0⟩⟩ rfl
      JobStatus.Completed rfl)
    0 (by decide) (by decide)).1 (by decide)

end Airweave
